import Mathlib

/-!
Verification of the persistent AST history engine of the sapling editor
(`src/editable_tree/dag.rs`) and its command layer (`src/editor.rs`).

The arena is modelled as an append-only list of nodes; a node *reference*
is an index into that list, so reference identity is index equality and
allocated nodes are never moved or mutated, exactly as in the Rust arena.
-/

set_option maxHeartbeats 1000000

namespace Sapling

/-- Modelled from the spec (§3, `Ast` trait is not under `src/`): a tree
node holds an abstract payload and an ordered list of child references
(arena indices).  `clone()` is plain structure copy, `children` /
`children_mut` are field access / field update. -/
structure Node where
  payload : Nat
  children : List Nat
deriving DecidableEq

/-- Modelled from the spec (§4.1, `arena.rs` is not under `src/`): an
append-only store of nodes; `alloc` appends and returns a stable
reference (the index of the new node). -/
structure Arena where
  nodes : List Node
deriving DecidableEq

def Arena.size (a : Arena) : Nat := a.nodes.length

def Arena.alloc (a : Arena) (n : Node) : Arena × Nat :=
  ({ nodes := a.nodes ++ [n] }, a.nodes.length)

/-- Dereference a node reference (Rust `*r`).  Valid references (index
less than `size`) are the only ones the program ever produces. -/
def Arena.getNode (a : Arena) (r : Nat) : Node :=
  a.nodes[r]?.getD { payload := 0, children := [] }

/-- Arena closure: every child reference held by a stored node points
into the arena.  In Rust this holds by the type system (`&'arena Node`). -/
def Arena.Closed (a : Arena) : Prop :=
  ∀ n ∈ a.nodes, ∀ c ∈ n.children, c < a.nodes.length

instance (a : Arena) : Decidable a.Closed := by
  unfold Arena.Closed; infer_instance

/-- `b` extends `a` by further allocations only. -/
def Arena.Ext (a b : Arena) : Prop :=
  ∃ l, b.nodes = a.nodes ++ l

/-- The four cursor directions (`editable_tree::Direction`). -/
inductive Direction
  | Down
  | Up
  | Prev
  | Next
deriving DecidableEq

/-- Modelled from the spec (§4.2, `cursor_path.rs` is not under `src/`):
`CursorPath::node_iter` collected to a list — the chain of node
references from the root following each child index, yielding the root,
each intermediate node, then the cursor node (length = path length + 1).
`none` models the iterator's failure on an out-of-bounds index. -/
def nodeIter (a : Arena) (r : Nat) : List Nat → Option (List Nat)
  | [] => some [r]
  | i :: p =>
    match a.nodes[r]? with
    | none => none
    | some n =>
      match n.children[i]? with
      | none => none
      | some c => (nodeIter a c p).map (fun l => r :: l)

/-- The node reference found by following a position (a list of child
indices) from `r`; `none` if the position does not exist. -/
def nodeAt (a : Arena) (r : Nat) : List Nat → Option Nat
  | [] => some r
  | i :: p =>
    match a.nodes[r]? with
    | none => none
    | some n =>
      match n.children[i]? with
      | none => none
      | some c => nodeAt a c p

/-- `onPath p q` holds when position `p` lies on the path from the root
to the cursor position `q`, i.e. `p` is a prefix of `q`. -/
def onPath (p q : List Nat) : Bool :=
  q.take p.length == p

/-- `diverges p q` holds when the positions `p` and `q` part ways at
some depth: neither is a prefix of the other. -/
def diverges : List Nat → List Nat → Bool
  | [], _ => false
  | _ :: _, [] => false
  | a :: as_, b :: bs => if a = b then diverges as_ bs else true

/-- The state of `DAG` (`dag.rs`, lines 16–26), with the arena inlined
as a field: the history of `(root, cursor path)` pairs, the index of the
current entry, and the current cursor path. -/
structure DAG where
  arena : Arena
  root_history : List (Nat × List Nat)
  history_index : Nat
  current_cursor_path : List Nat
deriving DecidableEq

namespace DAG

/-- `DAG::new` (`dag.rs`, lines 36–43). -/
def new (arena : Arena) (root : Nat) : DAG :=
  { arena := arena
    root_history := [(root, [])]
    history_index := 0
    current_cursor_path := [] }

/-- `DAG::root` (`dag.rs`, lines 75–79): the root reference of the
current history entry.  The default is never read when the documented
index invariant holds. -/
def root (d : DAG) : Nat :=
  (d.root_history.getD d.history_index (0, [])).1

/-- `DAG::cursor` as a reference (`dag.rs`, lines 81–83): the last
element of the node chain; `none` models the panic on an invalid path. -/
def cursor? (d : DAG) : Option Nat :=
  (nodeIter d.arena d.root d.current_cursor_path).map (fun l => l.getLastD d.root)

/-- `DAG::cursor_and_parent` (`dag.rs`, lines 30–33, delegating to the
spec-modelled `CursorPath::cursor_and_parent`): the cursor node and its
direct parent if one exists. -/
def cursor_and_parent (d : DAG) : Option (Nat × Option Nat) :=
  match nodeIter d.arena d.root d.current_cursor_path with
  | none => none
  | some chain => some (chain.getLastD d.root, chain.dropLast.getLast?)

/-- `DAG::undo` (`dag.rs`, lines 47–58). -/
def undo (d : DAG) : Bool × DAG :=
  if 0 < d.history_index then
    (true,
      { d with
          history_index := d.history_index - 1
          current_cursor_path := (d.root_history.getD (d.history_index - 1) (0, [])).2 })
  else
    (false, d)

/-- `DAG::redo` (`dag.rs`, lines 60–71). -/
def redo (d : DAG) : Bool × DAG :=
  if d.history_index < d.root_history.length - 1 then
    (true,
      { d with
          history_index := d.history_index + 1
          current_cursor_path := (d.root_history.getD (d.history_index + 1) (0, [])).2 })
  else
    (false, d)

/-- `DAG::move_cursor` (`dag.rs`, lines 85–131).  The outer `none`
models the panic of `cursor_and_parent` on an invalid cursor path; a
`some (msg?, d')` result carries the returned diagnostic and the new
state. -/
def move_cursor (d : DAG) (direction : Direction) : Option (Option String × DAG) :=
  match d.cursor_and_parent with
  | none => none
  | some (current_cursor, cursor_parent) =>
    match direction with
    | Direction.Down =>
      if (d.arena.getNode current_cursor).children.isEmpty then
        some (some "Cannot move down the tree if the cursor has no children.", d)
      else
        some (none, { d with current_cursor_path := d.current_cursor_path ++ [0] })
    | Direction.Up =>
      if d.current_cursor_path.isEmpty then
        some (some "Cannot move to the parent of the root.", d)
      else
        some (none, { d with current_cursor_path := d.current_cursor_path.dropLast })
    | Direction.Prev =>
      match d.current_cursor_path.getLast? with
      | none => some (some "Cannot move to a sibling of the root.", d)
      | some index =>
        if index = 0 then
          some (some "Cannot move before the first child of a node.", d)
        else
          some (none,
            { d with current_cursor_path := d.current_cursor_path.dropLast ++ [index - 1] })
    | Direction.Next =>
      match d.current_cursor_path.getLast? with
      | none => some (some "Cannot move to a sibling of the root.", d)
      | some last_index =>
        match cursor_parent with
        | none => none
        | some parent =>
          if last_index + 1 < (d.arena.getNode parent).children.length then
            some (none,
              { d with current_cursor_path := d.current_cursor_path.dropLast ++ [last_index + 1] })
          else
            some (some "Cannot move past the last sibling of a node.", d)

/-- One step of the clone-and-relink loop of `DAG::replace_cursor`
(`dag.rs`, lines 155–163): clone the ancestor, overwrite the child slot
at the path index with the node built so far, allocate the clone. -/
def cloneStep (acc : Arena × Nat) (pr : Nat × Nat) : Arena × Nat :=
  let cloned_node := acc.1.getNode pr.1
  acc.1.alloc { cloned_node with children := cloned_node.children.set pr.2 acc.2 }

/-- `DAG::replace_cursor` (`dag.rs`, lines 133–170): truncate the
future, collect the root-to-cursor chain, drop the cursor itself,
allocate the replacement, then clone-and-relink bottom-up over the
reversed ancestor chain zipped with the reversed path.  `none` models
the panic of `node_iter` on an invalid cursor path. -/
def replace_cursor (d : DAG) (new_node : Node) : Option DAG :=
  let hist := d.root_history.take (d.history_index + 1)
  let r := (hist.getD d.history_index (0, [])).1
  match nodeIter d.arena r d.current_cursor_path with
  | none => none
  | some chain =>
    let nodes_to_clone := chain.dropLast
    let start := d.arena.alloc new_node
    let res := (nodes_to_clone.reverse.zip d.current_cursor_path.reverse).foldl cloneStep start
    some
      { arena := res.1
        root_history := hist ++ [(res.2, d.current_cursor_path)]
        history_index := (hist ++ [(res.2, d.current_cursor_path)]).length - 1
        current_cursor_path := d.current_cursor_path }

/-- `DAG::insert_child` (`dag.rs`, lines 172–174): `unimplemented!()`
panics on every call, modelled as `none`. -/
def insert_child (_d : DAG) (_new_node : Node) : Option DAG :=
  none

end DAG

/-- One externally driven step of the engine.  `move_cursor` and
`replace_cursor` steps require the operation not to panic (`some`
result); a `replace_cursor` step supplies a node whose child references
are valid arena references, as Rust's `&'arena Node` guarantees. -/
inductive Step : DAG → DAG → Prop
  | undo (d : DAG) : Step d (DAG.undo d).2
  | redo (d : DAG) : Step d (DAG.redo d).2
  | move (d : DAG) (dir : Direction) (msg : Option String) (d' : DAG) :
      DAG.move_cursor d dir = some (msg, d') → Step d d'
  | replace (d : DAG) (n : Node) (d' : DAG) :
      (∀ c ∈ n.children, c < d.arena.size) →
      DAG.replace_cursor d n = some d' → Step d d'

/-- States reachable from `DAG::new` on a valid initial root by any
sequence of `undo` / `redo` / `move_cursor` / `replace_cursor` calls. -/
inductive Reachable : DAG → Prop
  | init (a : Arena) (r : Nat) : r < a.size → Reachable (DAG.new a r)
  | step (d d' : DAG) : Reachable d → Step d d' → Reachable d'

/- ===== The command layer (`src/editor.rs`) ===== -/

/-- `LogLevel` (`editor.rs`, lines 12–24). -/
inductive LogLevel
  | VerboseDebug
  | Debug
  | Info
  | Warning
  | Error
deriving DecidableEq

/-- `Command` (`editor.rs`, lines 42–57). -/
inductive Command
  | Quit
  | Replace
  | InsertChild
  | MoveCursor (d : Direction)
  | Undo
  | Redo
deriving DecidableEq

/-- `Action` (`editor.rs`, lines 79–94). -/
inductive Action
  | Undefined
  | Quit
  | Replace (c : Char)
  | InsertChild (c : Char)
  | MoveCursor (d : Direction)
  | Undo
  | Redo
deriving DecidableEq

/-- `KeyMap` (`editor.rs`, line 61), as an association list with
distinct keys in place of the `HashMap`. -/
def KeyMap : Type := List (Char × Command)

/-- `default_keymap` (`editor.rs`, lines 63–75). -/
def default_keymap : List (Char × Command) :=
  [ ('q', Command.Quit),
    ('i', Command.InsertChild),
    ('r', Command.Replace),
    ('c', Command.MoveCursor Direction.Down),
    ('p', Command.MoveCursor Direction.Up),
    ('k', Command.MoveCursor Direction.Prev),
    ('j', Command.MoveCursor Direction.Next),
    ('u', Command.Undo),
    ('R', Command.Redo) ]

/-- `parse_command` (`editor.rs`, lines 109–147), over the command
string's character list.  `none` means the command is incomplete. -/
def parse_command (keymap : List (Char × Command)) (command : List Char) : Option Action :=
  match command with
  | [] => none
  | c :: rest =>
    match keymap.lookup c with
    | some Command.Quit => some Action.Quit
    | some Command.InsertChild =>
      match rest with
      | insert_char :: _ => some (Action.InsertChild insert_char)
      | [] => none
    | some Command.Replace =>
      match rest with
      | replace_char :: _ => some (Action.Replace replace_char)
      | [] => none
    | some (Command.MoveCursor direction) => some (Action.MoveCursor direction)
    | some Command.Undo => some Action.Undo
    | some Command.Redo => some Action.Redo
    | none => some Action.Undefined

/-- The state of `Editor` (`editor.rs`, lines 150–163) that the core
claims concern: the tree, the log and the command buffer.  The terminal
handle, format style and keymap play no part in the modelled methods. -/
structure Editor where
  tree : DAG
  log : List (LogLevel × String)
  command : List Char
deriving DecidableEq

/-- `Editor::insert_child` (`editor.rs`, lines 218–227): consult the
cursor node's `is_insert_char` capability (a parameter here, as the
`Ast` trait is not under `src/`) and push one log entry; the tree is
never touched.  `none` models a panic of `cursor()` on an invalid
path. -/
def Editor.insert_child (is_insert_char : Node → Char → Bool) (e : Editor) (c : Char) :
    Option Editor :=
  match e.tree.cursor? with
  | none => none
  | some cur =>
    if is_insert_char (e.tree.arena.getNode cur) c then
      some { e with log := e.log ++ [(LogLevel.Debug, "Inserting with " ++ String.mk [c])] }
    else
      some { e with log := e.log ++ [(LogLevel.Warning, "Cannot replace node with " ++ String.mk [c])] }

/- ===== Basic arena lemmas ===== -/

namespace Arena

theorem Ext.rfl (a : Arena) : a.Ext a := ⟨[], by simp⟩

theorem Ext.trans {a b c : Arena} (h1 : a.Ext b) (h2 : b.Ext c) : a.Ext c := by
  obtain ⟨l1, e1⟩ := h1
  obtain ⟨l2, e2⟩ := h2
  exact ⟨l1 ++ l2, by simp [e2, e1]⟩

theorem ext_alloc (a : Arena) (n : Node) : a.Ext (a.alloc n).1 := ⟨[n], rfl⟩

theorem size_alloc (a : Arena) (n : Node) : (a.alloc n).1.size = a.size + 1 := by
  simp [alloc, size]

theorem alloc_ref_lt (a : Arena) (n : Node) : (a.alloc n).2 < (a.alloc n).1.size := by
  simp [alloc, size]

theorem getElem?_of_ext {a b : Arena} (h : a.Ext b) {r : Nat} (hr : r < a.size) :
    b.nodes[r]? = a.nodes[r]? := by
  obtain ⟨l, e⟩ := h
  rw [e, List.getElem?_append_left hr]

theorem getNode_of_ext {a b : Arena} (h : a.Ext b) {r : Nat} (hr : r < a.size) :
    b.getNode r = a.getNode r := by
  simp [getNode, getElem?_of_ext h hr]

theorem getNode_alloc_self (a : Arena) (n : Node) :
    (a.alloc n).1.getNode (a.alloc n).2 = n := by
  simp [alloc, getNode, List.getElem?_concat_length]

theorem getElem?_alloc_self (a : Arena) (n : Node) :
    (a.alloc n).1.nodes[(a.alloc n).2]? = some n := by
  simp [alloc, List.getElem?_concat_length]

theorem Closed.child_lt {a : Arena} (hc : a.Closed) {r : Nat} {n : Node}
    (hn : a.nodes[r]? = some n) {i c : Nat} (hch : n.children[i]? = some c) :
    c < a.size := by
  obtain ⟨hr, rfl⟩ := List.getElem?_eq_some.mp hn
  obtain ⟨hi, rfl⟩ := List.getElem?_eq_some.mp hch
  exact hc _ (a.nodes.getElem_mem hr) _ (List.getElem_mem hi)

theorem closed_alloc {a : Arena} (ha : a.Closed) {n : Node}
    (hn : ∀ c ∈ n.children, c < a.size + 1) : (a.alloc n).1.Closed := by
  intro m hm c hcm
  simp only [alloc, List.mem_append, List.mem_singleton] at hm
  simp only [alloc, List.length_append, List.length_singleton]
  rcases hm with hm | rfl
  · exact Nat.lt_succ_of_lt (ha m hm c hcm)
  · exact hn c hcm

end Arena

/- ===== nodeIter and nodeAt lemmas ===== -/

theorem nodeIter_length {a : Arena} {p : List Nat} :
    ∀ {r : Nat} {l : List Nat}, nodeIter a r p = some l → l.length = p.length + 1 := by
  induction p with
  | nil => intro r l h; simp [nodeIter] at h; simp [← h]
  | cons i ps ih =>
    intro r l h
    simp only [nodeIter] at h
    cases hn : a.nodes[r]? with
    | none => rw [hn] at h; cases h
    | some n =>
      rw [hn] at h
      dsimp only at h
      cases hch : n.children[i]? with
      | none => rw [hch] at h; cases h
      | some c =>
        rw [hch] at h
        dsimp only at h
        cases ht : nodeIter a c ps with
        | none => rw [ht] at h; cases h
        | some tl =>
          rw [ht] at h
          simp only [Option.map_some'] at h
          cases h
          simp [ih ht]

theorem nodeIter_ne_nil {a : Arena} {p : List Nat} {r : Nat} {l : List Nat}
    (h : nodeIter a r p = some l) : l ≠ [] := by
  intro hnil
  have := nodeIter_length h
  rw [hnil] at this
  simp at this

/-- A looked-up child stays the same after the arena grows, and
following a whole position from a valid reference is unchanged, as long
as the original arena is closed. -/
theorem nodeAt_ext {a b : Arena} (hc : a.Closed) (hext : a.Ext b) :
    ∀ (p : List Nat) {r : Nat}, r < a.size → nodeAt b r p = nodeAt a r p := by
  intro p
  induction p with
  | nil => intro r _; simp [nodeAt]
  | cons i ps ih =>
    intro r hr
    have hb : b.nodes[r]? = a.nodes[r]? := Arena.getElem?_of_ext hext hr
    have ha : a.nodes[r]? = some a.nodes[r] := List.getElem?_eq_getElem hr
    simp only [nodeAt, hb, ha]
    cases hch : (a.nodes[r]).children[i]? with
    | none => rfl
    | some c => exact ih (hc.child_lt ha hch)

/- ===== The clone-and-relink fold of replace_cursor ===== -/

theorem Arena.Ext.size_le {a b : Arena} (h : a.Ext b) : a.size ≤ b.size := by
  obtain ⟨l, e⟩ := h
  simp [Arena.size, e]

theorem zip_reverse_of_length_eq {α β : Type} :
    ∀ (l₁ : List α) (l₂ : List β), l₁.length = l₂.length →
      l₁.reverse.zip l₂.reverse = (l₁.zip l₂).reverse := by
  intro l₁
  induction l₁ with
  | nil =>
    intro l₂ h
    simp
  | cons a as_ ih =>
    intro l₂ h
    cases l₂ with
    | nil => simp at h
    | cons b bs =>
      simp only [List.length_cons, Nat.succ.injEq] at h
      simp only [List.reverse_cons]
      rw [List.zip_append (by simp [h]), ih bs h]
      simp

/-- The bottom-up clone loop, in top-down recursive form: the `foldr`
of `cloneStep` over the forward ancestor chain zipped with the forward
path. -/
def rebuild (chain p : List Nat) (start : Arena × Nat) : Arena × Nat :=
  (chain.zip p).foldr (fun x acc => DAG.cloneStep acc x) start

/-- The loop of `replace_cursor` — a `foldl` over the reversed chain
zipped with the reversed path — is the `foldr` form `rebuild`. -/
theorem foldl_cloneStep_eq_rebuild (chain p : List Nat) (start : Arena × Nat)
    (h : chain.length = p.length) :
    (chain.reverse.zip p.reverse).foldl DAG.cloneStep start = rebuild chain p start := by
  rw [zip_reverse_of_length_eq chain p h, List.foldl_reverse, rebuild]

theorem rebuild_nil (p : List Nat) (start : Arena × Nat) : rebuild [] p start = start := by
  simp [rebuild]

theorem rebuild_cons (r : Nat) (rest : List Nat) (i : Nat) (ps : List Nat)
    (start : Arena × Nat) :
    rebuild (r :: rest) (i :: ps) start = DAG.cloneStep (rebuild rest ps start) (r, i) := by
  simp [rebuild]

/-- Main characterisation of the clone-and-relink loop: starting from a
closed arena `a0`, a valid root `r` and a valid cursor path `p` (with
ancestor chain given by `node_iter`), and any already-extended closed
arena `a1` holding the replacement at `cur`, the loop only allocates
(`Ext`), keeps the arena closed, allocates exactly one node per path
step, returns a valid new root, and leaves every position diverging
from `p` resolving to the reference it resolved to under the old root. -/
theorem rebuild_spec {a0 : Arena} (hc0 : a0.Closed) :
    ∀ (p : List Nat) {r : Nat} {chain : List Nat},
      r < a0.size →
      nodeIter a0 r p = some chain →
      ∀ {a1 : Arena} {cur : Nat}, a0.Ext a1 → a1.Closed → cur < a1.size →
      (a1.Ext (rebuild chain.dropLast p (a1, cur)).1 ∧
        (rebuild chain.dropLast p (a1, cur)).1.Closed ∧
        (rebuild chain.dropLast p (a1, cur)).2 < (rebuild chain.dropLast p (a1, cur)).1.size) ∧
      (rebuild chain.dropLast p (a1, cur)).1.size = a1.size + p.length ∧
      (∀ q, diverges q p = true →
        nodeAt (rebuild chain.dropLast p (a1, cur)).1 (rebuild chain.dropLast p (a1, cur)).2 q
          = nodeAt a0 r q) := by
  intro p
  induction p with
  | nil =>
    intro r chain hr hit a1 cur hext01 hc1 hcur
    simp only [nodeIter] at hit
    cases hit
    simp only [List.dropLast_single, rebuild_nil]
    refine ⟨⟨Arena.Ext.rfl a1, hc1, hcur⟩, by simp, ?_⟩
    intro q hq
    cases q <;> simp [diverges] at hq
  | cons i ps ih =>
    intro r chain hr hit a1 cur hext01 hc1 hcur
    simp only [nodeIter] at hit
    cases hn : a0.nodes[r]? with
    | none => rw [hn] at hit; cases hit
    | some n =>
      rw [hn] at hit
      dsimp only at hit
      cases hch : n.children[i]? with
      | none => rw [hch] at hit; cases hit
      | some c =>
        rw [hch] at hit
        dsimp only at hit
        cases htl : nodeIter a0 c ps with
        | none => rw [htl] at hit; cases hit
        | some tl =>
          rw [htl] at hit
          simp only [Option.map_some'] at hit
          cases hit
          -- chain = r :: tl with tl ≠ []
          have htl_ne : tl ≠ [] := nodeIter_ne_nil htl
          have hdrop : (r :: tl).dropLast = r :: tl.dropLast := by
            cases tl with
            | nil => exact absurd rfl htl_ne
            | cons x xs => rfl
          have hcsz : c < a0.size := hc0.child_lt hn hch
          have IH := ih hcsz htl hext01 hc1 hcur
          rw [hdrop, rebuild_cons]
          set R := rebuild tl.dropLast ps (a1, cur) with hR
          obtain ⟨⟨hext1R, hcR, hltR⟩, hszR, hshareR⟩ := IH
          have hext0R : a0.Ext R.1 := hext01.trans hext1R
          -- the cloned ancestor read in the grown arena is the original node
          have hgetR : R.1.getNode r = n := by
            rw [Arena.getNode_of_ext hext0R hr]
            simp [Arena.getNode, hn]
          have hstep :
              DAG.cloneStep R (r, i)
                = R.1.alloc { n with children := n.children.set i R.2 } := by
            simp [DAG.cloneStep, hgetR]
          rw [hstep]
          have hchildset : ∀ x ∈ n.children.set i R.2, x < R.1.size + 1 := by
            intro x hx
            rcases List.mem_or_eq_of_mem_set hx with hx' | rfl
            · have hn_mem : n ∈ a0.nodes := by
                obtain ⟨hrl, e⟩ := List.getElem?_eq_some.mp hn
                exact e ▸ a0.nodes.getElem_mem hrl
              have : x < a0.size := hc0 n hn_mem x hx'
              exact Nat.lt_succ_of_lt (Nat.lt_of_lt_of_le this hext0R.size_le)
            · exact Nat.lt_succ_of_lt hltR
          refine ⟨⟨hext1R.trans (Arena.ext_alloc _ _), Arena.closed_alloc hcR hchildset, ?_⟩,
            ?_, ?_⟩
          · rw [Arena.size_alloc]
            simp [Arena.alloc]
            exact Nat.lt_succ_self _
          · rw [Arena.size_alloc, hszR]
            simp [List.length_cons]
            omega
          · intro q hq
            cases q with
            | nil => simp [diverges] at hq
            | cons j qs =>
              simp only [diverges] at hq
              have hi_lt : i < n.children.length := by
                obtain ⟨h', _⟩ := List.getElem?_eq_some.mp hch
                exact h'
              -- the new root dereferences to the clone
              have hnew_get :
                  (R.1.alloc { n with children := n.children.set i R.2 }).1.nodes[
                    (R.1.alloc { n with children := n.children.set i R.2 }).2]?
                    = some { n with children := n.children.set i R.2 } :=
                Arena.getElem?_alloc_self _ _
              by_cases hij : j = i
              · subst hij
                rw [if_pos rfl] at hq
                -- follow the replaced child slot
                have hslot : ({ n with children := n.children.set j R.2 } : Node).children[j]?
                    = some R.2 := by
                  simp [List.getElem?_set, hi_lt]
                simp only [nodeAt, hnew_get, hslot, hn, hch]
                have hextR3 : R.1.Ext (R.1.alloc { n with children := n.children.set j R.2 }).1 :=
                  Arena.ext_alloc _ _
                rw [nodeAt_ext hcR hextR3 qs hltR]
                exact hshareR qs hq
              · -- an untouched child slot: the old subtree is shared
                have hslot : ({ n with children := n.children.set i R.2 } : Node).children[j]?
                    = n.children[j]? := by
                  simp [List.getElem?_set_ne (fun h => hij h.symm)]
                simp only [nodeAt, hnew_get, hslot, hn]
                cases hcj : n.children[j]? with
                | none => rfl
                | some c' =>
                  have hc'sz : c' < a0.size := hc0.child_lt hn hcj
                  have hext03 :
                      a0.Ext (R.1.alloc { n with children := n.children.set i R.2 }).1 :=
                    hext0R.trans (Arena.ext_alloc _ _)
                  dsimp only
                  rw [nodeAt_ext hc0 hext03 qs hc'sz]

/- ===== Characterisation of replace_cursor ===== -/

/-- The root reference read by `replace_cursor` after truncation is the
current root: truncation keeps the current entry. -/
theorem truncated_root_read (d : DAG) :
    ((d.root_history.take (d.history_index + 1)).getD d.history_index (0, [])).1 = d.root := by
  simp [DAG.root, List.getD_eq_getElem?_getD, List.getElem?_take, Nat.lt_succ_self]

/-- `replace_cursor` on a valid cursor path: truncate the future,
append the rebuilt root, current entry becomes the last. -/
theorem replace_cursor_eq {d : DAG} (nn : Node) {chain : List Nat}
    (hit : nodeIter d.arena d.root d.current_cursor_path = some chain) :
    d.replace_cursor nn
      = some { arena := (rebuild chain.dropLast d.current_cursor_path (d.arena.alloc nn)).1
               root_history := d.root_history.take (d.history_index + 1)
                 ++ [((rebuild chain.dropLast d.current_cursor_path (d.arena.alloc nn)).2,
                      d.current_cursor_path)]
               history_index := (d.root_history.take (d.history_index + 1)).length
               current_cursor_path := d.current_cursor_path } := by
  have hlen : chain.dropLast.length = d.current_cursor_path.length := by
    have := nodeIter_length hit
    simp [List.length_dropLast, this]
  simp only [DAG.replace_cursor, truncated_root_read, hit,
    foldl_cloneStep_eq_rebuild _ _ _ hlen]
  simp

/-- Helper facts for theorems about states produced by `replace_cursor`:
if it returns `some d'`, a valid chain existed and `d'` has the shape of
`replace_cursor_eq`. -/
theorem replace_cursor_some_inv {d : DAG} {nn : Node} {d' : DAG}
    (h : d.replace_cursor nn = some d') :
    ∃ chain, nodeIter d.arena d.root d.current_cursor_path = some chain ∧
      d' = { arena := (rebuild chain.dropLast d.current_cursor_path (d.arena.alloc nn)).1
             root_history := d.root_history.take (d.history_index + 1)
               ++ [((rebuild chain.dropLast d.current_cursor_path (d.arena.alloc nn)).2,
                    d.current_cursor_path)]
             history_index := (d.root_history.take (d.history_index + 1)).length
             current_cursor_path := d.current_cursor_path } := by
  cases hit : nodeIter d.arena d.root d.current_cursor_path with
  | none =>
    exfalso
    simp only [DAG.replace_cursor, truncated_root_read, hit] at h
    cases h
  | some chain =>
    refine ⟨chain, rfl, ?_⟩
    rw [replace_cursor_eq nn hit] at h
    exact (Option.some.injEq _ _).mp h.symm

/-- The root of a state produced by `replace_cursor` is the rebuilt
node. -/
theorem root_after_replace {d : DAG} {nn : Node} {chain : List Nat}
    (hit : nodeIter d.arena d.root d.current_cursor_path = some chain) :
    ∀ {d' : DAG}, d.replace_cursor nn = some d' →
      d'.root = (rebuild chain.dropLast d.current_cursor_path (d.arena.alloc nn)).2 := by
  intro d' h
  rw [replace_cursor_eq nn hit] at h
  cases h
  simp [DAG.root, List.getD_eq_getElem?_getD, List.getElem?_concat_length]

theorem cloneStep_size (acc : Arena × Nat) (pr : Nat × Nat) :
    (DAG.cloneStep acc pr).1.size = acc.1.size + 1 := by
  simp [DAG.cloneStep, Arena.size_alloc]

theorem rebuild_size (ch p : List Nat) (st : Arena × Nat) (h : ch.length = p.length) :
    (rebuild ch p st).1.size = st.1.size + p.length := by
  have : ∀ (l : List (Nat × Nat)) (st' : Arena × Nat),
      ((l.foldr (fun x acc => DAG.cloneStep acc x) st').1.size = st'.1.size + l.length) := by
    intro l
    induction l with
    | nil => intro st'; simp
    | cons x xs ih =>
      intro st'
      simp only [List.foldr_cons, cloneStep_size, ih st', List.length_cons]
      omega
  rw [rebuild, this]
  simp [List.length_zip, h]

/- ===== A concrete editing session used by witnesses ===== -/

/-- A three-node arena: two leaves and a root holding both as
children. -/
def arenaD : Arena := { nodes := [⟨1, []⟩, ⟨2, []⟩, ⟨3, [0, 1]⟩] }

/-- The engine freshly created on the root of `arenaD`. -/
def dagD : DAG := DAG.new arenaD 2

/-- `dagD` with the cursor moved down onto the first child. -/
def dagDown : DAG := ((DAG.move_cursor dagD Direction.Down).getD (none, dagD)).2

/-- `dagDown` after replacing the cursor node (the first leaf) with a
fresh leaf. -/
def dagRep : DAG := (DAG.replace_cursor dagDown ⟨9, []⟩).getD dagD

/- ===== C1 ===== -/

/-- C1 (counterexample): the claim that after `replace_cursor` *every*
node reachable from the new root at a position off the root-to-cursor
path is reference-identical to the old node at that position is false
for a replacement node that itself has children.  With the cursor at
the root of `dagD` and the replacement holding child reference `1`,
position `[0]` is reachable from the new root, is not on the (empty)
cursor path, yet resolves to reference `1` in the new root and to
reference `0` in the previous root. -/
theorem replace_sharing_below_cursor_fails :
    (DAG.replace_cursor dagD ⟨9, [1]⟩).map (fun d2 => nodeAt d2.arena d2.root [0])
        = some (some 1) ∧
      nodeAt dagD.arena dagD.root [0] = some 0 ∧
      onPath [0] dagD.current_cursor_path = false ∧
      (some 1 : Option Nat) ≠ some 0 := by
  decide

/-- C1 (amended): after `replace_cursor` on a closed arena, a valid
root and a replacement node with valid child references, every position
that diverges from the root-to-cursor path (neither lies on it nor
extends it below the replacement) resolves to the same node reference
under the new root as under the previously current root. -/
theorem replace_cursor_shares_off_path (d : DAG) (nn : Node) (d' : DAG) (q : List Nat)
    (hclosed : d.arena.Closed) (hroot : d.root < d.arena.size)
    (hnn : ∀ c ∈ nn.children, c < d.arena.size)
    (hrep : d.replace_cursor nn = some d')
    (hq : diverges q d.current_cursor_path = true) :
    nodeAt d'.arena d'.root q = nodeAt d.arena d.root q := by
  obtain ⟨chain, hit, heq⟩ := replace_cursor_some_inv hrep
  have hroot' := root_after_replace hit hrep
  have ha1c : (d.arena.alloc nn).1.Closed :=
    Arena.closed_alloc hclosed (fun c hc => Nat.lt_succ_of_lt (hnn c hc))
  have hspec := rebuild_spec hclosed d.current_cursor_path hroot hit
    (Arena.ext_alloc d.arena nn) ha1c (Arena.alloc_ref_lt d.arena nn)
  have harena : d'.arena
      = (rebuild chain.dropLast d.current_cursor_path (d.arena.alloc nn)).1 := by
    rw [heq]
  rw [hroot', harena]
  exact hspec.2.2 q hq

/-- C1 (amended, witness): in the concrete session, after replacing the
first leaf the sibling position `[1]` resolves to the same reference as
before. -/
theorem replace_cursor_shares_off_path_witness :
    nodeAt dagRep.arena dagRep.root [1] = nodeAt dagDown.arena dagDown.root [1] :=
  replace_cursor_shares_off_path dagDown ⟨9, []⟩ dagRep [1]
    (by decide) (by decide) (by decide) (by decide) (by decide)

/- ===== C6 ===== -/

/-- C6: one successful `replace_cursor` call allocates exactly
(cursor-path depth) + 1 new nodes in the arena, whatever the tree
size. -/
theorem replace_cursor_alloc_count (d : DAG) (nn : Node) (d' : DAG)
    (hrep : d.replace_cursor nn = some d') :
    d'.arena.size = d.arena.size + (d.current_cursor_path.length + 1) := by
  obtain ⟨chain, hit, heq⟩ := replace_cursor_some_inv hrep
  have hlen : chain.dropLast.length = d.current_cursor_path.length := by
    simp [List.length_dropLast, nodeIter_length hit]
  have harena : d'.arena
      = (rebuild chain.dropLast d.current_cursor_path (d.arena.alloc nn)).1 := by
    rw [heq]
  rw [harena, rebuild_size _ _ _ hlen, Arena.size_alloc]
  omega

/-- C6 (witness): the concrete replacement at depth 1 allocates exactly
two nodes: 3 + (1 + 1) = 5. -/
theorem replace_cursor_alloc_count_witness :
    dagRep.arena.size = dagDown.arena.size + (dagDown.current_cursor_path.length + 1) :=
  replace_cursor_alloc_count dagDown ⟨9, []⟩ dagRep (by decide)

/- ===== C5 ===== -/

/-- C5: `undo` succeeds exactly when `history_index > 0`; on success it
decrements the index and restores the cursor path stored in the
now-current history entry, touching nothing else; at index 0 it returns
false and leaves the whole state unchanged. -/
theorem undo_spec (d : DAG) (_h : d.history_index < d.root_history.length) :
    ((d.undo).1 = true ↔ 0 < d.history_index) ∧
    (0 < d.history_index →
      (d.undo).2.history_index = d.history_index - 1 ∧
      (d.undo).2.current_cursor_path
        = (d.root_history.getD (d.history_index - 1) (0, [])).2 ∧
      (d.undo).2.root_history = d.root_history ∧
      (d.undo).2.arena = d.arena) ∧
    (d.history_index = 0 → (d.undo).1 = false ∧ (d.undo).2 = d) := by
  by_cases h0 : 0 < d.history_index
  · have h0' : ¬d.history_index = 0 := by omega
    simp [DAG.undo, h0, h0']
  · have h0' : d.history_index = 0 := by omega
    simp [DAG.undo, h0, h0']

/-- C5 (witness): at the fresh state the index is 0, so `undo` reports
false and changes nothing; after one edit the index is 1 and `undo`
restores entry 0. -/
theorem undo_spec_witness :
    ((dagRep.undo).1 = true ↔ 0 < dagRep.history_index) ∧
    (0 < dagRep.history_index →
      (dagRep.undo).2.history_index = dagRep.history_index - 1 ∧
      (dagRep.undo).2.current_cursor_path
        = (dagRep.root_history.getD (dagRep.history_index - 1) (0, [])).2 ∧
      (dagRep.undo).2.root_history = dagRep.root_history ∧
      (dagRep.undo).2.arena = dagRep.arena) ∧
    (dagRep.history_index = 0 → (dagRep.undo).1 = false ∧ (dagRep.undo).2 = dagRep) :=
  undo_spec dagRep (by decide)

/- ===== C8 ===== -/

/-- A successful or failed `move_cursor` only rewrites the cursor
path. -/
theorem move_cursor_only_path {d : DAG} {dir : Direction} {msg : Option String} {d' : DAG}
    (h : d.move_cursor dir = some (msg, d')) :
    ∃ p, d' = { d with current_cursor_path := p } := by
  unfold DAG.move_cursor at h
  split at h
  · cases h
  · split at h
    · split at h
      · cases h; exact ⟨d.current_cursor_path, rfl⟩
      · cases h; exact ⟨_, rfl⟩
    · split at h
      · cases h; exact ⟨d.current_cursor_path, rfl⟩
      · cases h; exact ⟨_, rfl⟩
    · split at h
      · cases h; exact ⟨d.current_cursor_path, rfl⟩
      · split at h
        · cases h; exact ⟨d.current_cursor_path, rfl⟩
        · cases h; exact ⟨_, rfl⟩
    · split at h
      · cases h; exact ⟨d.current_cursor_path, rfl⟩
      · split at h
        · cases h
        · split at h
          · cases h; exact ⟨_, rfl⟩
          · cases h; exact ⟨d.current_cursor_path, rfl⟩

/-- C8: `move_cursor` (whether it succeeds or returns a diagnostic)
leaves `root_history`, `history_index` and the arena unchanged, and
`undo` / `redo` leave `root_history` and the arena unchanged. -/
theorem history_frame (d : DAG) :
    (∀ (dir : Direction) (msg : Option String) (d' : DAG),
        d.move_cursor dir = some (msg, d') →
        d'.root_history = d.root_history ∧ d'.history_index = d.history_index ∧
        d'.arena = d.arena) ∧
    ((d.undo).2.root_history = d.root_history ∧ (d.undo).2.arena = d.arena) ∧
    ((d.redo).2.root_history = d.root_history ∧ (d.redo).2.arena = d.arena) := by
  refine ⟨?_, ?_, ?_⟩
  · intro dir msg d' h
    obtain ⟨p, rfl⟩ := move_cursor_only_path h
    exact ⟨rfl, rfl, rfl⟩
  · unfold DAG.undo
    split
    · exact ⟨rfl, rfl⟩
    · exact ⟨rfl, rfl⟩
  · unfold DAG.redo
    split
    · exact ⟨rfl, rfl⟩
    · exact ⟨rfl, rfl⟩

/-- C8 (witness): the frame conditions at the concrete state `dagD` and
its successful Down move. -/
theorem history_frame_witness :
    dagDown.root_history = dagD.root_history ∧ dagDown.history_index = dagD.history_index ∧
      dagDown.arena = dagD.arena :=
  (history_frame dagD).1 Direction.Down none dagDown (by decide)

/- ===== C2 ===== -/

/-- The documented history invariant, preserved by every operation. -/
theorem wf_of_reachable {d : DAG} (h : Reachable d) :
    1 ≤ d.root_history.length ∧ d.history_index < d.root_history.length := by
  induction h with
  | init a r hr => simp [DAG.new]
  | step d d' hr hs ih =>
    obtain ⟨ihlen, ihidx⟩ := ih
    cases hs with
    | undo =>
      unfold DAG.undo
      split
      · dsimp only
        exact ⟨ihlen, by omega⟩
      · exact ⟨ihlen, ihidx⟩
    | redo =>
      unfold DAG.redo
      split
      next hlt =>
        dsimp only
        exact ⟨ihlen, by omega⟩
      next hlt => exact ⟨ihlen, ihidx⟩
    | move dir msg d₂ hm =>
      obtain ⟨p, rfl⟩ := move_cursor_only_path hm
      exact ⟨ihlen, ihidx⟩
    | replace n d₂ hn hm =>
      obtain ⟨chain, hit, rfl⟩ := replace_cursor_some_inv hm
      simp

/-- C2: in every state reachable from `new` by any sequence of `undo`,
`redo`, `move_cursor` and `replace_cursor` calls, `root_history` has
length at least 1 and `history_index` is a valid index into it. -/
theorem reachable_history_index_bound (d : DAG) (h : Reachable d) :
    1 ≤ d.root_history.length ∧ d.history_index < d.root_history.length :=
  wf_of_reachable h

/-- C2 (witness): the invariant at the freshly created state. -/
theorem reachable_history_index_bound_witness :
    1 ≤ dagD.root_history.length ∧ dagD.history_index < dagD.root_history.length :=
  reachable_history_index_bound dagD (Reachable.init arenaD 2 (by decide))

/- ===== C4 ===== -/

/-- Any state produced by `replace_cursor` has its current entry last,
so an immediately following `redo` reports false and changes nothing. -/
theorem redo_after_replace {d : DAG} {nn : Node} {d₂ : DAG}
    (hrep : d.replace_cursor nn = some d₂) : d₂.redo = (false, d₂) := by
  obtain ⟨chain, hit, rfl⟩ := replace_cursor_some_inv hrep
  unfold DAG.redo
  rw [if_neg]
  simp

/-- C4: after a successful `undo`, a `replace_cursor` call truncates the
abandoned future entries — the new history is the old one up to the
current entry plus the one new entry — and a `redo` immediately after
returns false and leaves the state unchanged. -/
theorem undo_then_replace_discards_redo (d : DAG) (nn : Node) (d₂ : DAG)
    (_hundo : (d.undo).1 = true)
    (hrep : ((d.undo).2).replace_cursor nn = some d₂) :
    (∃ nr, d₂.root_history
        = (d.undo).2.root_history.take ((d.undo).2.history_index + 1)
          ++ [(nr, (d.undo).2.current_cursor_path)]) ∧
    (d₂.redo).1 = false ∧ (d₂.redo).2 = d₂ := by
  obtain ⟨chain, hit, heq⟩ := replace_cursor_some_inv hrep
  refine ⟨⟨_, by rw [heq]⟩, ?_, ?_⟩
  · rw [redo_after_replace hrep]
  · rw [redo_after_replace hrep]

/-- C4 (witness): undoing the concrete edit and editing again discards
the old future entry; redo then fails without changing the state. -/
theorem undo_then_replace_discards_redo_witness :
    (∃ nr, ((DAG.replace_cursor (dagRep.undo).2 ⟨7, []⟩).getD dagD).root_history
        = (dagRep.undo).2.root_history.take ((dagRep.undo).2.history_index + 1)
          ++ [(nr, (dagRep.undo).2.current_cursor_path)]) ∧
    ((((DAG.replace_cursor (dagRep.undo).2 ⟨7, []⟩).getD dagD).redo).1 = false ∧
      (((DAG.replace_cursor (dagRep.undo).2 ⟨7, []⟩).getD dagD).redo).2
        = ((DAG.replace_cursor (dagRep.undo).2 ⟨7, []⟩).getD dagD)) :=
  undo_then_replace_discards_redo dagRep ⟨7, []⟩ _ (by decide) (by decide)

/- ===== C3 ===== -/

/-- `k` consecutive `replace_cursor` edits; `none` if any of them
panics. -/
def replaceMany (d : DAG) : List Node → Option DAG
  | [] => some d
  | n :: rest =>
    match d.replace_cursor n with
    | none => none
    | some d' => replaceMany d' rest

/-- `k` consecutive `undo()` calls (each is total). -/
def undoTimes (d : DAG) : Nat → DAG
  | 0 => d
  | k + 1 => undoTimes (d.undo).2 k

/-- `k` consecutive `redo()` calls (each is total). -/
def redoTimes (d : DAG) : Nat → DAG
  | 0 => d
  | k + 1 => redoTimes (d.redo).2 k

theorem undoTimes_spec :
    ∀ (k : Nat) (s : DAG), k ≤ s.history_index →
      (undoTimes s k).root_history = s.root_history ∧
      (undoTimes s k).history_index = s.history_index - k := by
  intro k
  induction k with
  | zero => intro s _; exact ⟨rfl, rfl⟩
  | succ k ih =>
    intro s hk
    have h0 : 0 < s.history_index := by omega
    have hs : (s.undo).2
        = { s with
              history_index := s.history_index - 1
              current_cursor_path := (s.root_history.getD (s.history_index - 1) (0, [])).2 } := by
      simp [DAG.undo, h0]
    have := ih (s.undo).2 (by rw [hs]; dsimp only; omega)
    rw [undoTimes, this.1, this.2, hs]
    exact ⟨rfl, by dsimp only; omega⟩

theorem redoTimes_spec :
    ∀ (k : Nat) (s : DAG), s.history_index + k < s.root_history.length →
      (redoTimes s k).root_history = s.root_history ∧
      (redoTimes s k).history_index = s.history_index + k := by
  intro k
  induction k with
  | zero => intro s _; exact ⟨rfl, rfl⟩
  | succ k ih =>
    intro s hk
    have h0 : s.history_index < s.root_history.length - 1 := by omega
    have hs : (s.redo).2
        = { s with
              history_index := s.history_index + 1
              current_cursor_path := (s.root_history.getD (s.history_index + 1) (0, [])).2 } := by
      simp [DAG.redo, h0]
    have := ih (s.redo).2 (by rw [hs]; dsimp only; omega)
    rw [redoTimes, this.1, this.2, hs]
    exact ⟨rfl, by dsimp only; omega⟩

theorem replaceMany_spec :
    ∀ (ns : List Node) (d d' : DAG), d.history_index < d.root_history.length →
      replaceMany d ns = some d' →
      d'.root_history.take (d.history_index + 1) = d.root_history.take (d.history_index + 1) ∧
      d'.history_index = d.history_index + ns.length ∧
      d'.history_index < d'.root_history.length := by
  intro ns
  induction ns with
  | nil =>
    intro d d' hwf h
    simp only [replaceMany] at h
    cases h
    exact ⟨rfl, rfl, hwf⟩
  | cons n rest ih =>
    intro d d' hwf h
    simp only [replaceMany] at h
    cases hrep : d.replace_cursor n with
    | none => rw [hrep] at h; cases h
    | some d₁ =>
      rw [hrep] at h
      dsimp only at h
      obtain ⟨chain, hit, hd₁⟩ := replace_cursor_some_inv hrep
      have htklen : (d.root_history.take (d.history_index + 1)).length
          = d.history_index + 1 := by
        simp [List.length_take]
        omega
      have hidx₁ : d₁.history_index = d.history_index + 1 := by
        rw [hd₁]; dsimp only; omega
      have hwf₁ : d₁.history_index < d₁.root_history.length := by
        rw [hd₁]; dsimp only
        simp [htklen]
      obtain ⟨htk, hidx', hwf'⟩ := ih d₁ d' hwf₁ h
      refine ⟨?_, ?_, hwf'⟩
      · have h1 : d'.root_history.take (d.history_index + 1)
            = (d'.root_history.take (d₁.history_index + 1)).take (d.history_index + 1) := by
          rw [List.take_take]
          congr 1
          omega
        have h2 : d₁.root_history.take (d₁.history_index + 1) = d₁.root_history := by
          apply List.take_of_length_le
          rw [hd₁]
          dsimp only
          simp [htklen]
        rw [h1, htk, h2, hd₁]
        dsimp only
        exact List.take_left' htklen
      · rw [hidx', hidx₁, List.length_cons]
        omega

/-- C3: from a reachable state, after `k` successful `replace_cursor`
edits, `k` `undo()` calls restore `root()` to the reference it had
before the edits, and `k` `redo()` calls after that restore the root
the edits produced. -/
theorem undo_redo_inverse (d : DAG) (ns : List Node) (d' : DAG)
    (h : Reachable d) (hrep : replaceMany d ns = some d') :
    (undoTimes d' ns.length).root = d.root ∧
    (redoTimes (undoTimes d' ns.length) ns.length).root = d'.root := by
  obtain ⟨_hlen, hidx⟩ := wf_of_reachable h
  obtain ⟨htk, hidx', hwf'⟩ := replaceMany_spec ns d d' hidx hrep
  have hk : ns.length ≤ d'.history_index := by omega
  obtain ⟨hu_hist, hu_idx⟩ := undoTimes_spec ns.length d' hk
  have hu_idx' : (undoTimes d' ns.length).history_index = d.history_index := by omega
  constructor
  · rw [DAG.root, hu_hist, hu_idx']
    rw [DAG.root]
    have hget : d'.root_history[d.history_index]? = d.root_history[d.history_index]? := by
      have e1 : d'.root_history[d.history_index]?
          = (d'.root_history.take (d.history_index + 1))[d.history_index]? := by
        rw [List.getElem?_take, if_pos (Nat.lt_succ_self _)]
      have e2 : d.root_history[d.history_index]?
          = (d.root_history.take (d.history_index + 1))[d.history_index]? := by
        rw [List.getElem?_take, if_pos (Nat.lt_succ_self _)]
      rw [e1, e2, htk]
    simp [List.getD_eq_getElem?_getD, hget]
  · have hr : (undoTimes d' ns.length).history_index + ns.length
        < (undoTimes d' ns.length).root_history.length := by
      rw [hu_hist, hu_idx']
      omega
    obtain ⟨hr_hist, hr_idx⟩ := redoTimes_spec ns.length (undoTimes d' ns.length) hr
    rw [DAG.root, hr_hist, hu_hist, hr_idx, hu_idx']
    rw [DAG.root]
    have : d.history_index + ns.length = d'.history_index := by omega
    rw [this]

/-- C3 (witness): one concrete edit, one undo restoring the old root,
one redo restoring the new root. -/
theorem undo_redo_inverse_witness :
    (undoTimes dagRep 1).root = dagDown.root ∧
    (redoTimes (undoTimes dagRep 1) 1).root = dagRep.root :=
  undo_redo_inverse dagDown [⟨9, []⟩] dagRep
    (Reachable.step dagD dagDown (Reachable.init arenaD 2 (by decide))
      (Step.move dagD Direction.Down none dagDown (by decide)))
    (by decide)

/- ===== C7 ===== -/

/-- C7: on a valid cursor path, each direction of `move_cursor` fails
with a diagnostic exactly at its boundary — `Up` at the root, `Down` on
a childless cursor node, `Prev` at the root or at index 0, `Next` at
the root or when the incremented index would reach the parent's child
count — leaving the state unchanged, and otherwise succeeds changing
only the cursor path (pop, push 0, decrement last, increment last). -/
theorem move_cursor_boundary_spec (d : DAG) (cur : Nat) (par : Option Nat)
    (hcp : d.cursor_and_parent = some (cur, par)) :
    (d.current_cursor_path = [] →
      d.move_cursor Direction.Up = some (some "Cannot move to the parent of the root.", d)) ∧
    (d.current_cursor_path ≠ [] →
      d.move_cursor Direction.Up
        = some (none, { d with current_cursor_path := d.current_cursor_path.dropLast })) ∧
    ((d.arena.getNode cur).children = [] →
      d.move_cursor Direction.Down
        = some (some "Cannot move down the tree if the cursor has no children.", d)) ∧
    ((d.arena.getNode cur).children ≠ [] →
      d.move_cursor Direction.Down
        = some (none, { d with current_cursor_path := d.current_cursor_path ++ [0] })) ∧
    (d.current_cursor_path = [] →
      d.move_cursor Direction.Prev = some (some "Cannot move to a sibling of the root.", d)) ∧
    (∀ i, d.current_cursor_path.getLast? = some i →
      (i = 0 →
        d.move_cursor Direction.Prev
          = some (some "Cannot move before the first child of a node.", d)) ∧
      (i ≠ 0 →
        d.move_cursor Direction.Prev
          = some (none,
              { d with current_cursor_path := d.current_cursor_path.dropLast ++ [i - 1] }))) ∧
    (d.current_cursor_path = [] →
      d.move_cursor Direction.Next = some (some "Cannot move to a sibling of the root.", d)) ∧
    (∀ i p, d.current_cursor_path.getLast? = some i → par = some p →
      (i + 1 < (d.arena.getNode p).children.length →
        d.move_cursor Direction.Next
          = some (none,
              { d with current_cursor_path := d.current_cursor_path.dropLast ++ [i + 1] })) ∧
      (¬i + 1 < (d.arena.getNode p).children.length →
        d.move_cursor Direction.Next
          = some (some "Cannot move past the last sibling of a node.", d))) := by
  refine ⟨?_, ?_, ?_, ?_, ?_, ?_, ?_, ?_⟩
  · intro h
    simp [DAG.move_cursor, hcp, h]
  · intro h
    simp [DAG.move_cursor, hcp, h]
  · intro h
    simp [DAG.move_cursor, hcp, h]
  · intro h
    simp [DAG.move_cursor, hcp, h]
  · intro h
    simp [DAG.move_cursor, hcp, h]
  · intro i hi
    constructor
    · intro h0
      simp [DAG.move_cursor, hcp, hi, h0]
    · intro h0
      simp [DAG.move_cursor, hcp, hi, h0]
  · intro h
    simp [DAG.move_cursor, hcp, h]
  · intro i p hi hp
    constructor
    · intro hlt
      simp [DAG.move_cursor, hcp, hi, hp, hlt]
    · intro hlt
      simp [DAG.move_cursor, hcp, hi, hp, hlt]

/-- C7 (witness): at the concrete state with the cursor on the first
child, `Up` succeeds and pops the path. -/
theorem move_cursor_boundary_spec_witness :
    DAG.move_cursor dagDown Direction.Up
      = some (none, { dagDown with current_cursor_path := dagDown.current_cursor_path.dropLast }) :=
  (move_cursor_boundary_spec dagDown 0 (some 2) (by decide)).2.1 (by decide)

/- ===== C9 ===== -/

/-- C9: with the default keymap, "ra" parses to `Replace 'a'`, "i"
alone is incomplete (`none`), "x" is `Undefined`; and in general a
command resolved by its first character alone keeps that result
whatever characters trail it. -/
theorem parse_command_spec :
    parse_command default_keymap ['r', 'a'] = some (Action.Replace 'a') ∧
    parse_command default_keymap ['i'] = none ∧
    parse_command default_keymap ['x'] = some Action.Undefined ∧
    (∀ (keymap : List (Char × Command)) (c : Char) (rest : List Char) (a : Action),
      parse_command keymap [c] = some a →
      parse_command keymap (c :: rest) = some a) := by
  refine ⟨by decide, by decide, by decide, ?_⟩
  intro km c rest a h
  simp only [parse_command] at h ⊢
  cases hk : km.lookup c with
  | none => rw [hk] at h; exact h
  | some cmd =>
    rw [hk] at h
    cases cmd <;> simp_all

/-- C9 (witness): trailing characters after the complete one-character
command "q" are ignored. -/
theorem parse_command_spec_witness :
    parse_command default_keymap ['q', 'z'] = some Action.Quit :=
  parse_command_spec.2.2.2 default_keymap 'q' ['z'] Action.Quit (by decide)

/- ===== C10 ===== -/

/-- A concrete editor session over the demo tree. -/
def editorD : Editor := { tree := dagD, log := [], command := [] }

/-- `editorD` after handling `InsertChild('a')` with a permissive
insert predicate. -/
def editorD' : Editor :=
  (Editor.insert_child (fun _ _ => true) editorD 'a').getD editorD

/-- C10: handling an `InsertChild` action never changes the tree state —
`Editor::insert_child` only appends one log entry — and
`DAG::insert_child` itself diverges (is `unimplemented!`) on every
call. -/
theorem insert_child_no_tree_effect :
    (∀ (is_insert_char : Node → Char → Bool) (e : Editor) (c : Char) (e' : Editor),
        Editor.insert_child is_insert_char e c = some e' →
        e'.tree = e.tree ∧ e'.command = e.command ∧
        ∃ entry, e'.log = e.log ++ [entry]) ∧
    (∀ (d : DAG) (n : Node), DAG.insert_child d n = none) := by
  constructor
  · intro f e c e' h
    unfold Editor.insert_child at h
    split at h
    · cases h
    · split at h
      · cases h
        exact ⟨rfl, rfl, _, rfl⟩
      · cases h
        exact ⟨rfl, rfl, _, rfl⟩
  · intro d n
    rfl

/-- C10 (witness): the concrete insert leaves the tree untouched. -/
theorem insert_child_no_tree_effect_witness :
    editorD'.tree = editorD.tree ∧ editorD'.command = editorD.command ∧
      ∃ entry, editorD'.log = editorD.log ++ [entry] :=
  insert_child_no_tree_effect.1 (fun _ _ => true) editorD 'a' editorD' (by decide)

end Sapling
